import Mathlib

/-!
Verification of the reputation scoring engine of `consensus/core/src/leader_scoring.rs`.

The Rust module is embedded shallowly:

* `BlockRef`, `Slot`, `Block`, `CommittedSubDag`, `CommitRange`, `ReputationScores`
  mirror the data model (`block.rs` / `commit.rs` are outside the provided sources,
  so their trivial record shapes are modelled from the spec's Data Model section).
* The `BTreeMap<BlockRef, VerifiedBlock>` index is modelled as a list of blocks kept
  sorted by the lexicographic `(round, author, digest)` key; range scans become
  order-preserving filters, exactly the set of keys the half-open digest-sentinel
  ranges select.
* Machine integers are `Nat`; the one place where `u32` overflow matters
  (`max_leader_round - 3`) is modelled with explicit wrap-around mod `2 ^ 32`,
  the release-profile semantics of the Rust subtraction.
* The recursive `find_supported_block` carries an explicit fuel bounding the
  nesting depth of recursive calls (the Rust recursion has no bound; any fuel
  larger than the round gap is exact on round-decreasing DAGs).
* Panics (`assert!`, `unwrap`) become `Except ScoringError`.
-/

/-- `(round, authority, digest)` triple identifying a block.
Modelled from the spec: `BlockRef` of `block.rs` is not in the sources; the spec
defines it as a triple with lexicographic ordering in this field order. -/
structure BlockRef where
  round : Nat
  author : Nat
  digest : Nat
deriving DecidableEq, Repr

/-- `(round, authority)` pair. Modelled from the spec: `Slot` of `block.rs`. -/
structure Slot where
  round : Nat
  author : Nat
deriving DecidableEq, Repr

/-- `Slot::from(BlockRef)`: drop the digest. -/
def Slot.ofRef (r : BlockRef) : Slot := ⟨r.round, r.author⟩

/-- A validated block: its own key fields plus the ancestor references.
Modelled from the spec: `VerifiedBlock` exposes `reference()`, `round()`,
`author()`, `ancestors()`. -/
structure Block where
  round : Nat
  author : Nat
  digest : Nat
  ancestors : List BlockRef
deriving DecidableEq, Repr

/-- `block.reference()`. -/
def Block.reference (b : Block) : BlockRef := ⟨b.round, b.author, b.digest⟩

/-- Lexicographic strict order on `BlockRef` in `(round, author, digest)` order. -/
def BlockRef.lt (a b : BlockRef) : Bool :=
  decide (a.round < b.round) ||
    (decide (a.round = b.round) &&
      (decide (a.author < b.author) ||
        (decide (a.author = b.author) && decide (a.digest < b.digest))))

/-- `CommittedSubDag { leader, blocks, commit_index }` (the timestamp field is
never read by the scoring engine and is omitted). -/
structure CommittedSubDag where
  leader : BlockRef
  blocks : List Block
  commit_index : Nat
deriving DecidableEq, Repr

/-- Modelled from the spec: `CommitRange` of `commit.rs` is the half-open
interval `[min_commit_index, max_commit_index)`. -/
structure CommitRange where
  start : Nat
  stop : Nat
deriving DecidableEq, Repr

/-- Modelled from the spec: the committee holds per-authority stake (the vector
index is the `AuthorityIndex`) and a quorum threshold `Q`. -/
structure Committee where
  stakes : List Nat
  quorum_threshold : Nat
deriving DecidableEq, Repr

/-- `committee.size()`. -/
def Committee.size (c : Committee) : Nat := c.stakes.length

/-- `committee.stake(authority)`. -/
def Committee.stake (c : Committee) (a : Nat) : Nat := c.stakes.getD a 0

/-- A sub-committer (`BaseCommitter`): the engine consumes exactly the three
pure functions listed in the spec's CommitterAdapter section; they are
externally supplied parameters of the engine. -/
structure Committer where
  elect_leader : Nat → Option Slot
  wave_number : Nat → Nat
  decision_round : Nat → Nat

/-- Modelled from the spec: `StakeAggregator<QuorumThreshold>` of
`stake_aggregator.rs` is not in the sources. It is a set of authorities with a
stake sum; adding the same authority twice does not double-count, and `add`
reports whether the aggregate stake has reached the quorum threshold. -/
structure StakeAggregator where
  votes : List Nat
  stake : Nat
deriving DecidableEq, Repr

/-- `StakeAggregator::new()`. -/
def StakeAggregator.new : StakeAggregator := ⟨[], 0⟩

/-- Modelled from the spec: `add(vote, committee)` inserts the authority; only a
first (successful) add contributes its stake; the returned flag is whether the
aggregate stake is at least `committee.quorum_threshold`, counting the crossing
vote as included. -/
def StakeAggregator.add (agg : StakeAggregator) (vote : Nat) (cm : Committee) :
    StakeAggregator × Bool :=
  if vote ∈ agg.votes then
    (agg, decide (cm.quorum_threshold ≤ agg.stake))
  else
    (⟨vote :: agg.votes, agg.stake + cm.stake vote⟩,
      decide (cm.quorum_threshold ≤ agg.stake + cm.stake vote))

/-- One insertion into the ordered index: a duplicate `BlockRef` key replaces
the stored block (the `BTreeMap` collect semantics), otherwise the block is
placed at its lexicographic position. -/
def insert_block (b : Block) : List Block → List Block
  | [] => [b]
  | x :: xs =>
    if b.reference = x.reference then b :: xs
    else if BlockRef.lt b.reference x.reference then b :: x :: xs
    else x :: insert_block b xs

/-- The `unscored_blocks` index: every block of every sub-DAG, keyed by its
reference (`flat_map` + `collect::<BTreeMap<_, _>>`). -/
def build_index (blocks : List Block) : List Block :=
  blocks.foldl (fun m b => insert_block b m) []

/-- Concatenation of the block lists of all sub-DAGs, in input order. -/
def subdag_blocks_union : List CommittedSubDag → List Block
  | [] => []
  | sd :: rest => sd.blocks ++ subdag_blocks_union rest

/-- `get_block`: exact lookup by reference in the index. -/
def get_block (index : List Block) (r : BlockRef) : Option Block :=
  index.find? (fun b => decide (b.reference = r))

/-- `get_blocks_at_slot`: the digest-sentinel range scan
`[(slot.round, slot.authority, MIN), (slot.round, slot.authority, MAX)]` selects
exactly the index entries whose round and author match the slot, in key order. -/
def get_blocks_at_slot (index : List Block) (s : Slot) : List Block :=
  index.filter (fun b => decide (b.round = s.round) && decide (b.author = s.author))

/-- `get_blocks_at_round`: the range scan
`[(round, ZERO, MIN), (round + 1, ZERO, MIN))` selects exactly the index entries
at `round`, in key order. -/
def get_blocks_at_round (index : List Block) (r : Nat) : List Block :=
  index.filter (fun b => decide (b.round = r))

/-- The ancestor scan of `find_supported_block`: in stored order, return a
direct slot match, skip weak links at rounds at most the leader round, recurse
(through `rec`) into indexed ancestors, and abort with `none` on the first
higher-round ancestor missing from the index. -/
def scan_ancestors (index : List Block) (rec : Block → Option BlockRef)
    (leader_slot : Slot) : List BlockRef → Option BlockRef
  | [] => none
  | a :: rest =>
    if Slot.ofRef a = leader_slot then some a
    else if a.round ≤ leader_slot.round then scan_ancestors index rec leader_slot rest
    else
      match get_block index a with
      | some ancestor =>
        match rec ancestor with
        | some support => some support
        | none => scan_ancestors index rec leader_slot rest
      | none => none

/-- `find_supported_block(leader_slot, from)`. The Rust function recurses with
no explicit bound; `fuel` bounds the nesting depth of recursive calls (each
recursive entry consumes one unit), and is exact whenever it exceeds the round
gap on round-decreasing DAGs. -/
def find_supported_block (index : List Block) : Nat → Slot → Block → Option BlockRef
  | 0, _, _ => none
  | fuel + 1, leader_slot, fromB =>
    if fromB.round < leader_slot.round then none
    else
      scan_ancestors index (fun b => find_supported_block index fuel leader_slot b)
        leader_slot fromB.ancestors

/-- `is_vote(potential_vote, leader_block)`. -/
def is_vote (index : List Block) (fuel : Nat) (potential_vote leader_block : Block) : Bool :=
  decide (find_supported_block index fuel (Slot.ofRef leader_block.reference) potential_vote
    = some leader_block.reference)

/-- Lookup in the per-leader vote cache (`all_votes : HashMap<BlockRef, bool>`),
modelled as an association list consulted by key. -/
def cache_lookup : List (BlockRef × Bool) → BlockRef → Option Bool
  | [], _ => none
  | p :: rest, r => if p.1 = r then some p.2 else cache_lookup rest r

/-- The loop of `is_certificate`: classify each ancestor reference as a vote
(using the cache, caching newly computed classifications of indexed blocks,
treating unindexed references as not-a-vote), aggregate voter stake, and return
true as soon as the aggregator reports the quorum threshold reached. -/
def is_certificate_go (index : List Block) (fuel : Nat) (cm : Committee)
    (leader_block : Block) :
    List BlockRef → List (BlockRef × Bool) → StakeAggregator →
      Bool × List (BlockRef × Bool)
  | [], cache, _ => (false, cache)
  | r :: rest, cache, agg =>
    let res : Bool × List (BlockRef × Bool) :=
      match cache_lookup cache r with
      | some v => (v, cache)
      | none =>
        match get_block index r with
        | some pv =>
          let v := is_vote index fuel pv leader_block
          (v, (r, v) :: cache)
        | none => (false, cache)
    if res.1 then
      let added := agg.add r.author cm
      if added.2 then (true, res.2)
      else is_certificate_go index fuel cm leader_block rest res.2 added.1
    else is_certificate_go index fuel cm leader_block rest res.2 agg

/-- `is_certificate(potential_certificate, leader_block, all_votes)`; returns
the flag together with the updated cache (the Rust cache is a `&mut` argument). -/
def is_certificate (index : List Block) (fuel : Nat) (cm : Committee)
    (potential_certificate leader_block : Block) (all_votes : List (BlockRef × Bool)) :
    Bool × List (BlockRef × Bool) :=
  is_certificate_go index fuel cm leader_block potential_certificate.ancestors
    all_votes StakeAggregator.new

/-- `add_score(authority_idx, score)`: out-of-range writes cannot happen on
valid inputs (every author is below the committee size). -/
def add_score (scores : List Nat) (authority_idx : Nat) (score : Nat) : List Nat :=
  scores.set authority_idx (scores.getD authority_idx 0 + score)

/-- The error kinds of the engine. `EmptyInput` and `EmptyBlocks` name the two
`assert!` panics; `InvariantViolation` names the one-leader-per-slot assertion;
`NoNonGenesisRounds` names the `min()/max().unwrap()` panic when every block of
the index is at the genesis round. -/
inductive ScoringError where
  | EmptyInput
  | EmptyBlocks
  | InvariantViolation
  | NoNonGenesisRounds
deriving DecidableEq, Repr

/-- The decision-round loop of `calculate_scores_for_leader`: for each decision
block in index order, test `is_certificate` (threading the per-leader cache) and
award one point to the decision block's author. -/
def score_decision_blocks (index : List Block) (fuel : Nat) (cm : Committee)
    (leader_block : Block) :
    List Block → List (BlockRef × Bool) → List Nat → List Nat
  | [], _, scores => scores
  | b :: rest, cache, scores =>
    let res := is_certificate index fuel cm b leader_block cache
    if res.1 then
      score_decision_blocks index fuel cm leader_block rest res.2 (add_score scores b.author 1)
    else
      score_decision_blocks index fuel cm leader_block rest res.2 scores

/-- `calculate_scores_for_leader(leader_slot, committer)`: no leader block in
the index is a silent skip; more than one violates the committed-sub-DAG
invariant (`assert!(leader_blocks.len() == 1)`). -/
def calculate_scores_for_leader (index : List Block) (fuel : Nat) (cm : Committee)
    (committer : Committer) (leader_slot : Slot) (scores : List Nat) :
    Except ScoringError (List Nat) :=
  let wave := committer.wave_number leader_slot.round
  let decision_round := committer.decision_round wave
  match get_blocks_at_slot index leader_slot with
  | [] => .ok scores
  | [leader_block] =>
    .ok (score_decision_blocks index fuel cm leader_block
      (get_blocks_at_round index decision_round) [] scores)
  | _ => .error .InvariantViolation

/-- One leader round of `calculate`: ask each sub-committer, in order, for a
leader slot and score it. -/
def score_round (index : List Block) (fuel : Nat) (cm : Committee) :
    List Committer → Nat → List Nat → Except ScoringError (List Nat)
  | [], _, scores => .ok scores
  | committer :: rest, r, scores =>
    let step :=
      match committer.elect_leader r with
      | some slot => calculate_scores_for_leader index fuel cm committer slot scores
      | none => .ok scores
    match step with
    | .ok s => score_round index fuel cm rest r s
    | .error e => .error e

/-- The leader-round loop of `calculate`. -/
def score_rounds (index : List Block) (fuel : Nat) (cm : Committee)
    (committers : List Committer) : List Nat → List Nat → Except ScoringError (List Nat)
  | [], scores => .ok scores
  | r :: rest, scores =>
    match score_round index fuel cm committers r scores with
    | .ok s => score_rounds index fuel cm committers rest s
    | .error e => .error e

/-- The block rounds feeding the leader-round window, genesis excluded. -/
def non_genesis_rounds (blocks : List Block) : List Nat :=
  (blocks.map Block.round).filter (fun r => decide (r ≠ 0))

/-- `max_leader_round - 3` on `u32`: wrap-around subtraction mod `2 ^ 32`
(the release-profile semantics of the Rust `-`; a debug build panics when
`max_leader_round < 3`). -/
def u32_sub3 (a : Nat) : Nat := (a + 4294967293) % 4294967296

/-- The leader rounds `min_leader_round..=(max_leader_round - 3)` iterated by
`calculate`. -/
def leader_rounds_range (minR maxR : Nat) : List Nat :=
  List.range' minR (u32_sub3 maxR + 1 - minR)

/-- `ReputationScores { scores_per_authority, commit_range }`. -/
structure ReputationScores where
  scores_per_authority : List Nat
  commit_range : CommitRange
deriving DecidableEq, Repr

/-- The calculator state: context committee, the sub-committers of the
`UniversalCommitter`, the block index, the derived commit range, and the score
vector the calculation accumulates into. -/
structure ReputationScoreCalculator where
  committee : Committee
  committers : List Committer
  unscored_blocks : List Block
  commit_range : CommitRange
  scores_per_authority : List Nat

/-- `ReputationScoreCalculator::new(context, committer, unscored_subdags)`:
zero scores per authority, the index of all sub-DAG blocks, and the commit
range spanning the minimum to maximum commit index. Constructing from zero
sub-DAGs is the `EmptyInput` assertion failure. -/
def ReputationScoreCalculator.new (committee : Committee) (committers : List Committer)
    (unscored_subdags : List CommittedSubDag) :
    Except ScoringError ReputationScoreCalculator :=
  if unscored_subdags.isEmpty then .error .EmptyInput
  else
    let commit_indexes := unscored_subdags.map CommittedSubDag.commit_index
    .ok
      { committee := committee
        committers := committers
        unscored_blocks := build_index (subdag_blocks_union unscored_subdags)
        commit_range := ⟨(commit_indexes.min?).getD 0, (commit_indexes.max?).getD 0⟩
        scores_per_authority := List.replicate committee.size 0 }

/-- `calculate()`: an empty index is the `EmptyBlocks` assertion failure; an
index with only genesis-round blocks makes `min()/max().unwrap()` panic; then
the engine walks every leader round of the window for every sub-committer and
returns the scores with the commit range. The updated calculator (the Rust
`&mut self`) is returned alongside. -/
def ReputationScoreCalculator.calculate (fuel : Nat) (c : ReputationScoreCalculator) :
    Except ScoringError (ReputationScores × ReputationScoreCalculator) :=
  if c.unscored_blocks.isEmpty then .error .EmptyBlocks
  else
    match (non_genesis_rounds c.unscored_blocks).min?,
        (non_genesis_rounds c.unscored_blocks).max? with
    | some minR, some maxR =>
      match score_rounds c.unscored_blocks fuel c.committee c.committers
          (leader_rounds_range minR maxR) c.scores_per_authority with
      | .ok scores => .ok (⟨scores, c.commit_range⟩, { c with scores_per_authority := scores })
      | .error e => .error e
    | _, _ => .error .NoNonGenesisRounds

/-- The comparator of `authorities_by_score_desc`: score descending, ties by
authority index descending. -/
def score_order (a b : Nat × Nat) : Prop :=
  b.2 < a.2 ∨ (a.2 = b.2 ∧ b.1 ≤ a.1)

instance : DecidableRel score_order := fun a b => by
  unfold score_order; infer_instance

instance : IsTotal (Nat × Nat) score_order :=
  ⟨fun a b => by unfold score_order; omega⟩

instance : IsTrans (Nat × Nat) score_order :=
  ⟨fun a b c hab hbc => by unfold score_order at *; omega⟩

/-- `authorities_by_score_desc`: enumerate `(authority index, score)` pairs and
sort them with the comparator (the Rust stable sort agrees with any sort here:
the comparator never ties distinct entries, their authority indexes differing). -/
def ReputationScores.authorities_by_score_desc (rs : ReputationScores) :
    List (Nat × Nat) :=
  List.insertionSort score_order rs.scores_per_authority.enum

/-! ### Basic list facts used throughout -/

theorem getD_set_ne (l : List Nat) : ∀ (a i v : Nat), a ≠ i →
    (l.set a v).getD i 0 = l.getD i 0 := by
  induction l with
  | nil => intro a i v _; rfl
  | cons x xs ih =>
    intro a i v h
    cases a with
    | zero =>
      cases i with
      | zero => exact absurd rfl h
      | succ j => rfl
    | succ a' =>
      cases i with
      | zero => rfl
      | succ j => simpa using ih a' j v (by omega)

theorem getD_set_self (l : List Nat) : ∀ (i v : Nat), i < l.length →
    (l.set i v).getD i 0 = v := by
  induction l with
  | nil => intro i v h; simp at h
  | cons x xs ih =>
    intro i v h
    cases i with
    | zero => rfl
    | succ j => simpa using ih j v (by simpa using h)

theorem getD_replicate_zero (n : Nat) : ∀ (i : Nat), (List.replicate n (0 : Nat)).getD i 0 = 0 := by
  induction n with
  | zero => intro i; rfl
  | succ m ih =>
    intro i
    cases i with
    | zero => rfl
    | succ j => simp only [List.replicate, List.getD_cons_succ]; exact ih j

theorem add_score_length (scores : List Nat) (a d : Nat) :
    (add_score scores a d).length = scores.length := by
  simp [add_score]

theorem add_score_getD_ne (scores : List Nat) (a i d : Nat) (h : a ≠ i) :
    (add_score scores a d).getD i 0 = scores.getD i 0 :=
  getD_set_ne scores a i _ h

theorem add_score_getD_self (scores : List Nat) (a d : Nat) (h : a < scores.length) :
    (add_score scores a d).getD a 0 = scores.getD a 0 + d :=
  getD_set_self scores a _ h

/-! ### Lookup facts for the block index -/

theorem get_block_mem {index : List Block} {r : BlockRef} {b : Block}
    (h : get_block index r = some b) : b ∈ index := by
  exact List.mem_of_find?_eq_some h

theorem get_block_ref {index : List Block} {r : BlockRef} {b : Block}
    (h : get_block index r = some b) : b.reference = r := by
  have := List.find?_some h
  simpa using this

/-! ### Vote classification and the memoization cache -/

/-- The leader-dependent vote classification of a reference, as the engine
computes it: resolve the reference in the index, run `is_vote`; an unindexed
reference is not a vote. -/
def vote_of_ref (index : List Block) (fuel : Nat) (leader_block : Block) (r : BlockRef) : Bool :=
  match get_block index r with
  | some pv => is_vote index fuel pv leader_block
  | none => false

/-- A vote cache is good when every entry records the true classification of
its key. The engine only ever inserts true classifications, so every cache it
builds is good. -/
def GoodCache (index : List Block) (fuel : Nat) (leader_block : Block)
    (cache : List (BlockRef × Bool)) : Prop :=
  ∀ p ∈ cache, p.2 = vote_of_ref index fuel leader_block p.1

theorem goodCache_nil (index : List Block) (fuel : Nat) (leader_block : Block) :
    GoodCache index fuel leader_block [] := by
  intro p hp; simp at hp

theorem cache_lookup_good {index : List Block} {fuel : Nat} {leader_block : Block}
    {cache : List (BlockRef × Bool)}
    (hg : GoodCache index fuel leader_block cache) :
    ∀ {r : BlockRef} {v : Bool}, cache_lookup cache r = some v →
      v = vote_of_ref index fuel leader_block r := by
  induction cache with
  | nil => intro r v h; simp [cache_lookup] at h
  | cons p rest ih =>
    intro r v h
    unfold cache_lookup at h
    by_cases hp : p.1 = r
    · rw [if_pos hp] at h
      have hv : v = p.2 := by injection h with h; exact h.symm
      rw [hv, hg p (by simp), hp]
    · rw [if_neg hp] at h
      exact ih (fun q hq => hg q (by simp [hq])) h

/-- The cache-free mirror of the `is_certificate` loop: classify with
`vote_of_ref`, aggregate stake, stop at the quorum. -/
def cert_aggregate (index : List Block) (fuel : Nat) (cm : Committee) (leader_block : Block) :
    StakeAggregator → List BlockRef → Bool
  | _, [] => false
  | agg, r :: rest =>
    if vote_of_ref index fuel leader_block r then
      let added := agg.add r.author cm
      if added.2 then true
      else cert_aggregate index fuel cm leader_block added.1 rest
    else cert_aggregate index fuel cm leader_block agg rest

theorem is_certificate_go_spec (index : List Block) (fuel : Nat) (cm : Committee)
    (leader_block : Block) :
    ∀ (l : List BlockRef) (cache : List (BlockRef × Bool)) (agg : StakeAggregator),
    GoodCache index fuel leader_block cache →
    (is_certificate_go index fuel cm leader_block l cache agg).1
        = cert_aggregate index fuel cm leader_block agg l
      ∧ GoodCache index fuel leader_block
          (is_certificate_go index fuel cm leader_block l cache agg).2 := by
  intro l
  induction l with
  | nil => intro cache agg hg; exact ⟨rfl, hg⟩
  | cons r rest ih =>
    intro cache agg hg
    unfold is_certificate_go cert_aggregate
    cases hcl : cache_lookup cache r with
    | some v =>
      have hv : v = vote_of_ref index fuel leader_block r := cache_lookup_good hg hcl
      simp only [hcl, ← hv]
      cases v with
      | true =>
        simp only [if_true]
        cases hadd : (agg.add r.author cm).2 with
        | true => simp only [hadd, if_true]; exact ⟨trivial, hg⟩
        | false =>
          simp only [hadd, Bool.false_eq_true, if_false]
          exact ih cache _ hg
      | false =>
        simp only [Bool.false_eq_true, if_false]
        exact ih cache agg hg
    | none =>
      cases hgb : get_block index r with
      | some pv =>
        have hv : vote_of_ref index fuel leader_block r = is_vote index fuel pv leader_block := by
          simp [vote_of_ref, hgb]
        have hcons : GoodCache index fuel leader_block
            ((r, is_vote index fuel pv leader_block) :: cache) := by
          intro p hp
          rcases List.mem_cons.mp hp with hp | hp
          · subst hp; simp [vote_of_ref, hgb]
          · exact hg p hp
        simp only [hcl, hgb, hv]
        cases hvv : is_vote index fuel pv leader_block with
        | true =>
          simp only [if_true]
          cases hadd : (agg.add r.author cm).2 with
          | true =>
            simp only [hadd, if_true]
            refine ⟨trivial, ?_⟩
            rw [hvv] at hcons
            exact hcons
          | false =>
            simp only [hadd, Bool.false_eq_true, if_false]
            rw [hvv] at hcons
            exact ih _ _ hcons
        | false =>
          simp only [Bool.false_eq_true, if_false]
          rw [hvv] at hcons
          exact ih _ _ hcons
      | none =>
        simp only [hcl, hgb]
        have hv : vote_of_ref index fuel leader_block r = false := by
          simp [vote_of_ref, hgb]
        simp only [hv, Bool.false_eq_true, if_false]
        exact ih cache agg hg

/-! ### Stake of distinct vote authors -/

/-- The ancestor references among `l` the engine classifies as votes for the
leader. -/
def vote_refs (index : List Block) (fuel : Nat) (leader_block : Block)
    (l : List BlockRef) : List BlockRef :=
  l.filter (fun r => vote_of_ref index fuel leader_block r)

/-- The distinct authors of the vote references among `l`. -/
def vote_authors (index : List Block) (fuel : Nat) (leader_block : Block)
    (l : List BlockRef) : Finset Nat :=
  ((vote_refs index fuel leader_block l).map (fun r => r.author)).toFinset

/-- Cumulative stake of the distinct authors of the candidate's ancestor
references that are classified as votes for the leader: the spec's certificate
condition. -/
def certificate_vote_stake (index : List Block) (fuel : Nat) (cm : Committee)
    (cand leader_block : Block) : Nat :=
  (vote_authors index fuel leader_block cand.ancestors).sum cm.stake

theorem cert_aggregate_reaches (index : List Block) (fuel : Nat) (cm : Committee)
    (leader_block : Block) :
    ∀ (l : List BlockRef) (agg : StakeAggregator),
    agg.votes.Nodup →
    agg.stake = agg.votes.toFinset.sum cm.stake →
    agg.stake < cm.quorum_threshold →
    cert_aggregate index fuel cm leader_block agg l
      = decide (cm.quorum_threshold ≤
          (agg.votes.toFinset ∪ vote_authors index fuel leader_block l).sum cm.stake) := by
  intro l
  induction l with
  | nil =>
    intro agg hnd hsum hlt
    unfold cert_aggregate
    have hA : vote_authors index fuel leader_block [] = ∅ := by
      simp [vote_authors, vote_refs]
    rw [hA, Finset.union_empty, ← hsum]
    symm
    exact decide_eq_false (by omega)
  | cons r rest ih =>
    intro agg hnd hsum hlt
    unfold cert_aggregate
    cases hvr : vote_of_ref index fuel leader_block r with
    | false =>
      simp only [Bool.false_eq_true, if_false]
      have hva : vote_authors index fuel leader_block (r :: rest)
          = vote_authors index fuel leader_block rest := by
        simp [vote_authors, vote_refs, List.filter_cons, hvr]
      rw [hva]
      exact ih agg hnd hsum hlt
    | true =>
      simp only [if_true]
      have hva : vote_authors index fuel leader_block (r :: rest)
          = insert r.author (vote_authors index fuel leader_block rest) := by
        simp [vote_authors, vote_refs, List.filter_cons, hvr]
      rw [hva]
      by_cases hmem : r.author ∈ agg.votes
      · have hadd : agg.add r.author cm = (agg, decide (cm.quorum_threshold ≤ agg.stake)) := by
          unfold StakeAggregator.add; rw [if_pos hmem]
        have hdec : decide (cm.quorum_threshold ≤ agg.stake) = false :=
          decide_eq_false (by omega)
        simp only [hadd, hdec, Bool.false_eq_true, if_false]
        have hins : agg.votes.toFinset
              ∪ insert r.author (vote_authors index fuel leader_block rest)
            = agg.votes.toFinset ∪ vote_authors index fuel leader_block rest := by
          rw [Finset.union_insert, Finset.insert_eq_self.mpr]
          exact Finset.mem_union_left _ (List.mem_toFinset.mpr hmem)
        rw [hins]
        exact ih agg hnd hsum hlt
      · have hnotF : r.author ∉ agg.votes.toFinset :=
          fun h => hmem (List.mem_toFinset.mp h)
        have hadd : agg.add r.author cm
            = (⟨r.author :: agg.votes, agg.stake + cm.stake r.author⟩,
                decide (cm.quorum_threshold ≤ agg.stake + cm.stake r.author)) := by
          unfold StakeAggregator.add; rw [if_neg hmem]
        have hsum' : ((r.author :: agg.votes).toFinset).sum cm.stake
            = cm.stake r.author + agg.votes.toFinset.sum cm.stake := by
          rw [List.toFinset_cons, Finset.sum_insert hnotF]
        by_cases hq : cm.quorum_threshold ≤ agg.stake + cm.stake r.author
        · have hdec : decide (cm.quorum_threshold ≤ agg.stake + cm.stake r.author) = true :=
            decide_eq_true hq
          simp only [hadd, hdec, if_true]
          symm
          rw [decide_eq_true_eq]
          have hsub : (r.author :: agg.votes).toFinset
              ⊆ agg.votes.toFinset ∪ insert r.author (vote_authors index fuel leader_block rest) := by
            intro x hx
            rw [List.toFinset_cons, Finset.mem_insert] at hx
            rcases hx with hx | hx
            · rw [hx]; exact Finset.mem_union_right _ (Finset.mem_insert_self _ _)
            · exact Finset.mem_union_left _ hx
          calc cm.quorum_threshold ≤ agg.stake + cm.stake r.author := hq
            _ = ((r.author :: agg.votes).toFinset).sum cm.stake := by rw [hsum']; omega
            _ ≤ _ := Finset.sum_le_sum_of_subset hsub
        · have hdec : decide (cm.quorum_threshold ≤ agg.stake + cm.stake r.author) = false :=
            decide_eq_false hq
          simp only [hadd, hdec, Bool.false_eq_true, if_false]
          have hnd' : (r.author :: agg.votes).Nodup := by
            rw [List.nodup_cons]; exact ⟨hmem, hnd⟩
          have hsumNew : agg.stake + cm.stake r.author
              = ((r.author :: agg.votes).toFinset).sum cm.stake := by
            rw [hsum']; omega
          have hltNew : agg.stake + cm.stake r.author < cm.quorum_threshold := by omega
          have ih' := ih ⟨r.author :: agg.votes, agg.stake + cm.stake r.author⟩ hnd'
            hsumNew hltNew
          rw [ih']
          congr 1
          rw [List.toFinset_cons, Finset.insert_union, Finset.union_insert]

/-- `is_certificate` with a fresh cache: the per-block certificate predicate. -/
def cert_pure (index : List Block) (fuel : Nat) (cm : Committee)
    (b leader_block : Block) : Bool :=
  (is_certificate index fuel cm b leader_block []).1

theorem is_certificate_cache_irrelevant (index : List Block) (fuel : Nat) (cm : Committee)
    (cand leader_block : Block) (cache : List (BlockRef × Bool))
    (hg : GoodCache index fuel leader_block cache) :
    (is_certificate index fuel cm cand leader_block cache).1
      = cert_pure index fuel cm cand leader_block := by
  unfold cert_pure is_certificate
  rw [(is_certificate_go_spec index fuel cm leader_block cand.ancestors cache
    StakeAggregator.new hg).1]
  rw [(is_certificate_go_spec index fuel cm leader_block cand.ancestors []
    StakeAggregator.new (goodCache_nil index fuel leader_block)).1]

theorem is_certificate_good_cache (index : List Block) (fuel : Nat) (cm : Committee)
    (cand leader_block : Block) (cache : List (BlockRef × Bool))
    (hg : GoodCache index fuel leader_block cache) :
    GoodCache index fuel leader_block
      (is_certificate index fuel cm cand leader_block cache).2 :=
  (is_certificate_go_spec index fuel cm leader_block cand.ancestors cache
    StakeAggregator.new hg).2

/-- C4: `is_certificate` is true exactly when the cumulative stake of the
distinct authors of the candidate's ancestor references classified as votes for
the leader reaches the quorum threshold. Absent ancestors are not votes; a
repeated author contributes stake once; the crossing ancestor is included. The
hypothesis `0 < Q` is the committee validity condition (`Q = 2f + 1 ≥ 1`). -/
theorem c4_is_certificate_iff_quorum_stake (index : List Block) (fuel : Nat)
    (cm : Committee) (cand leader_block : Block)
    (hQ : 0 < cm.quorum_threshold) :
    (is_certificate index fuel cm cand leader_block []).1 = true ↔
      cm.quorum_threshold ≤ certificate_vote_stake index fuel cm cand leader_block := by
  unfold is_certificate
  rw [(is_certificate_go_spec index fuel cm leader_block cand.ancestors []
    StakeAggregator.new (goodCache_nil index fuel leader_block)).1]
  rw [cert_aggregate_reaches index fuel cm leader_block cand.ancestors StakeAggregator.new
    (by simp [StakeAggregator.new]) (by simp [StakeAggregator.new])
    (by simpa [StakeAggregator.new] using hQ)]
  simp [StakeAggregator.new, certificate_vote_stake]

/-! ### The decision-round scoring loop -/

/-- Number of decision blocks authored by `i` that form a certificate for the
leader. -/
def count_certs (index : List Block) (fuel : Nat) (cm : Committee)
    (leader_block : Block) (blocks : List Block) (i : Nat) : Nat :=
  (blocks.filter (fun b => decide (b.author = i)
    && cert_pure index fuel cm b leader_block)).length

theorem score_decision_blocks_spec (index : List Block) (fuel : Nat) (cm : Committee)
    (leader_block : Block) :
    ∀ (blocks : List Block) (cache : List (BlockRef × Bool)) (scores : List Nat),
    GoodCache index fuel leader_block cache →
    (score_decision_blocks index fuel cm leader_block blocks cache scores).length
        = scores.length
      ∧ ∀ i, i < scores.length →
        (score_decision_blocks index fuel cm leader_block blocks cache scores).getD i 0
          = scores.getD i 0 + count_certs index fuel cm leader_block blocks i := by
  intro blocks
  induction blocks with
  | nil =>
    intro cache scores hg
    refine ⟨rfl, ?_⟩
    intro i _
    simp [score_decision_blocks, count_certs]
  | cons b rest ih =>
    intro cache scores hg
    have hcert := is_certificate_cache_irrelevant index fuel cm b leader_block cache hg
    have hgood := is_certificate_good_cache index fuel cm b leader_block cache hg
    unfold score_decision_blocks
    cases hcp : cert_pure index fuel cm b leader_block with
    | true =>
      simp only [hcert, hcp, if_true]
      obtain ⟨ihlen, ihgetD⟩ :=
        ih (is_certificate index fuel cm b leader_block cache).2
          (add_score scores b.author 1) hgood
      constructor
      · rw [ihlen, add_score_length]
      · intro i hi
        have hi' : i < (add_score scores b.author 1).length := by
          rw [add_score_length]; exact hi
        rw [ihgetD i hi']
        by_cases hbi : b.author = i
        · subst hbi
          rw [add_score_getD_self scores b.author 1 hi]
          have : count_certs index fuel cm leader_block (b :: rest) b.author
              = count_certs index fuel cm leader_block rest b.author + 1 := by
            unfold count_certs
            rw [List.filter_cons]
            simp [hcp]
          rw [this]; omega
        · rw [add_score_getD_ne scores b.author i 1 hbi]
          have : count_certs index fuel cm leader_block (b :: rest) i
              = count_certs index fuel cm leader_block rest i := by
            unfold count_certs
            rw [List.filter_cons]
            simp [hbi]
          rw [this]
    | false =>
      simp only [hcert, hcp, Bool.false_eq_true, if_false]
      obtain ⟨ihlen, ihgetD⟩ :=
        ih (is_certificate index fuel cm b leader_block cache).2 scores hgood
      refine ⟨ihlen, ?_⟩
      intro i hi
      rw [ihgetD i hi]
      have : count_certs index fuel cm leader_block (b :: rest) i
          = count_certs index fuel cm leader_block rest i := by
        unfold count_certs
        rw [List.filter_cons]
        simp [hcp]
      rw [this]

/-! ### Per-leader, per-round and total score deltas -/

/-- What one elected leader slot adds to authority `i`: zero without exactly one
leader block; otherwise the number of certificates authored by `i` at the
committer's decision round. -/
def leader_delta (index : List Block) (fuel : Nat) (cm : Committee)
    (committer : Committer) (leader_slot : Slot) (i : Nat) : Nat :=
  match get_blocks_at_slot index leader_slot with
  | [leader_block] =>
    count_certs index fuel cm leader_block
      (get_blocks_at_round index
        (committer.decision_round (committer.wave_number leader_slot.round))) i
  | _ => 0

/-- What one sub-committer adds to authority `i` at one leader round. -/
def elect_delta (index : List Block) (fuel : Nat) (cm : Committee)
    (committer : Committer) (r i : Nat) : Nat :=
  match committer.elect_leader r with
  | some slot => leader_delta index fuel cm committer slot i
  | none => 0

/-- What one leader round adds to authority `i` across the sub-committers. -/
def round_delta (index : List Block) (fuel : Nat) (cm : Committee)
    (committers : List Committer) (r i : Nat) : Nat :=
  (committers.map (fun committer => elect_delta index fuel cm committer r i)).sum

/-- What the whole leader-round window adds to authority `i`. -/
def total_delta (index : List Block) (fuel : Nat) (cm : Committee)
    (committers : List Committer) (rounds : List Nat) (i : Nat) : Nat :=
  (rounds.map (fun r => round_delta index fuel cm committers r i)).sum

theorem calculate_scores_for_leader_spec (index : List Block) (fuel : Nat) (cm : Committee)
    (committer : Committer) (leader_slot : Slot) (scores scores' : List Nat)
    (h : calculate_scores_for_leader index fuel cm committer leader_slot scores
      = .ok scores') :
    scores'.length = scores.length ∧
      ∀ i, i < scores.length →
        scores'.getD i 0 = scores.getD i 0
          + leader_delta index fuel cm committer leader_slot i := by
  cases hslot : get_blocks_at_slot index leader_slot with
  | nil =>
    simp only [calculate_scores_for_leader, hslot, Except.ok.injEq] at h
    subst h
    refine ⟨rfl, ?_⟩
    intro i _
    have : leader_delta index fuel cm committer leader_slot i = 0 := by
      unfold leader_delta; rw [hslot]
    omega
  | cons L rest =>
    cases rest with
    | nil =>
      simp only [calculate_scores_for_leader, hslot, Except.ok.injEq] at h
      subst h
      obtain ⟨hlen, hgetD⟩ := score_decision_blocks_spec index fuel cm L
        (get_blocks_at_round index
          (committer.decision_round (committer.wave_number leader_slot.round)))
        [] scores (goodCache_nil index fuel L)
      refine ⟨hlen, ?_⟩
      intro i hi
      rw [hgetD i hi]
      have : leader_delta index fuel cm committer leader_slot i
          = count_certs index fuel cm L
              (get_blocks_at_round index
                (committer.decision_round (committer.wave_number leader_slot.round))) i := by
        unfold leader_delta; rw [hslot]
      rw [this]
    | cons L2 rest2 =>
      simp only [calculate_scores_for_leader, hslot] at h
      exact absurd h (by simp)

theorem score_round_spec (index : List Block) (fuel : Nat) (cm : Committee) :
    ∀ (committers : List Committer) (r : Nat) (scores scores' : List Nat),
    score_round index fuel cm committers r scores = .ok scores' →
    scores'.length = scores.length ∧
      ∀ i, i < scores.length →
        scores'.getD i 0 = scores.getD i 0
          + round_delta index fuel cm committers r i := by
  intro committers
  induction committers with
  | nil =>
    intro r scores scores' h
    simp only [score_round, Except.ok.injEq] at h
    subst h
    refine ⟨rfl, ?_⟩
    intro i _
    simp [round_delta]
  | cons committer rest ih =>
    intro r scores scores' h
    unfold score_round at h
    cases helect : committer.elect_leader r with
    | none =>
      simp only [helect] at h
      obtain ⟨hl, hD⟩ := ih r scores scores' h
      refine ⟨hl, ?_⟩
      intro i hi
      rw [hD i hi]
      have : round_delta index fuel cm (committer :: rest) r i
          = round_delta index fuel cm rest r i := by
        simp [round_delta, elect_delta, helect]
      rw [this]
    | some slot =>
      simp only [helect] at h
      cases hstep : calculate_scores_for_leader index fuel cm committer slot scores with
      | error e => rw [hstep] at h; simp at h
      | ok s1 =>
        simp only [hstep] at h
        obtain ⟨hl1, hD1⟩ :=
          calculate_scores_for_leader_spec index fuel cm committer slot scores s1 hstep
        obtain ⟨hl2, hD2⟩ := ih r s1 scores' h
        refine ⟨by rw [hl2, hl1], ?_⟩
        intro i hi
        have hi1 : i < s1.length := by rw [hl1]; exact hi
        rw [hD2 i hi1, hD1 i hi]
        have hrd : round_delta index fuel cm (committer :: rest) r i
            = elect_delta index fuel cm committer r i
              + round_delta index fuel cm rest r i := by
          simp [round_delta]
        have he : elect_delta index fuel cm committer r i
            = leader_delta index fuel cm committer slot i := by
          simp [elect_delta, helect]
        rw [hrd, he]
        omega

theorem score_rounds_spec (index : List Block) (fuel : Nat) (cm : Committee)
    (committers : List Committer) :
    ∀ (rounds : List Nat) (scores scores' : List Nat),
    score_rounds index fuel cm committers rounds scores = .ok scores' →
    scores'.length = scores.length ∧
      ∀ i, i < scores.length →
        scores'.getD i 0 = scores.getD i 0
          + total_delta index fuel cm committers rounds i := by
  intro rounds
  induction rounds with
  | nil =>
    intro scores scores' h
    simp only [score_rounds, Except.ok.injEq] at h
    subst h
    refine ⟨rfl, ?_⟩
    intro i _
    simp [total_delta]
  | cons r rest ih =>
    intro scores scores' h
    unfold score_rounds at h
    cases hstep : score_round index fuel cm committers r scores with
    | error e => rw [hstep] at h; simp at h
    | ok s1 =>
      simp only [hstep] at h
      obtain ⟨hl1, hD1⟩ := score_round_spec index fuel cm committers r scores s1 hstep
      obtain ⟨hl2, hD2⟩ := ih s1 scores' h
      refine ⟨by rw [hl2, hl1], ?_⟩
      intro i hi
      have hi1 : i < s1.length := by rw [hl1]; exact hi
      rw [hD2 i hi1, hD1 i hi]
      have : total_delta index fuel cm committers (r :: rest) i
          = round_delta index fuel cm committers r i
            + total_delta index fuel cm committers rest i := by
        simp [total_delta]
      rw [this]
      omega

/-! ### Error classification and score-independence of the control flow -/

theorem calculate_scores_for_leader_error (index : List Block) (fuel : Nat) (cm : Committee)
    (committer : Committer) (leader_slot : Slot) (scores : List Nat) (e : ScoringError)
    (h : calculate_scores_for_leader index fuel cm committer leader_slot scores = .error e) :
    e = .InvariantViolation := by
  cases hslot : get_blocks_at_slot index leader_slot with
  | nil => simp [calculate_scores_for_leader, hslot] at h
  | cons L rest =>
    cases rest with
    | nil => simp [calculate_scores_for_leader, hslot] at h
    | cons L2 rest2 =>
      simp only [calculate_scores_for_leader, hslot, Except.error.injEq] at h
      exact h.symm

theorem score_round_error (index : List Block) (fuel : Nat) (cm : Committee) :
    ∀ (committers : List Committer) (r : Nat) (scores : List Nat) (e : ScoringError),
    score_round index fuel cm committers r scores = .error e → e = .InvariantViolation := by
  intro committers
  induction committers with
  | nil => intro r scores e h; simp [score_round] at h
  | cons committer rest ih =>
    intro r scores e h
    unfold score_round at h
    cases helect : committer.elect_leader r with
    | none =>
      simp only [helect] at h
      exact ih r scores e h
    | some slot =>
      simp only [helect] at h
      cases hstep : calculate_scores_for_leader index fuel cm committer slot scores with
      | error e' =>
        rw [hstep] at h
        simp only [Except.error.injEq] at h
        rw [h] at hstep
        exact calculate_scores_for_leader_error index fuel cm committer slot scores e hstep
      | ok s1 =>
        simp only [hstep] at h
        exact ih r s1 e h

theorem score_rounds_error (index : List Block) (fuel : Nat) (cm : Committee)
    (committers : List Committer) :
    ∀ (rounds : List Nat) (scores : List Nat) (e : ScoringError),
    score_rounds index fuel cm committers rounds scores = .error e →
    e = .InvariantViolation := by
  intro rounds
  induction rounds with
  | nil => intro scores e h; simp [score_rounds] at h
  | cons r rest ih =>
    intro scores e h
    unfold score_rounds at h
    cases hstep : score_round index fuel cm committers r scores with
    | error e' =>
      rw [hstep] at h
      simp only [Except.error.injEq] at h
      rw [h] at hstep
      exact score_round_error index fuel cm committers r scores e hstep
    | ok s1 =>
      simp only [hstep] at h
      exact ih s1 e h

theorem calculate_scores_for_leader_ok_independent (index : List Block) (fuel : Nat)
    (cm : Committee) (committer : Committer) (leader_slot : Slot) (s t s' : List Nat)
    (h : calculate_scores_for_leader index fuel cm committer leader_slot s = .ok s') :
    ∃ t', calculate_scores_for_leader index fuel cm committer leader_slot t = .ok t' := by
  cases hslot : get_blocks_at_slot index leader_slot with
  | nil => exact ⟨t, by simp [calculate_scores_for_leader, hslot]⟩
  | cons L rest =>
    cases rest with
    | nil =>
      exact ⟨score_decision_blocks index fuel cm L
        (get_blocks_at_round index
          (committer.decision_round (committer.wave_number leader_slot.round))) [] t,
        by simp [calculate_scores_for_leader, hslot]⟩
    | cons L2 rest2 => simp [calculate_scores_for_leader, hslot] at h

theorem score_round_ok_independent (index : List Block) (fuel : Nat) (cm : Committee) :
    ∀ (committers : List Committer) (r : Nat) (s t s' : List Nat),
    score_round index fuel cm committers r s = .ok s' →
    ∃ t', score_round index fuel cm committers r t = .ok t' := by
  intro committers
  induction committers with
  | nil => intro r s t s' _; exact ⟨t, rfl⟩
  | cons committer rest ih =>
    intro r s t s' h
    unfold score_round at h
    cases helect : committer.elect_leader r with
    | none =>
      simp only [helect] at h
      obtain ⟨t', ht'⟩ := ih r s t s' h
      exact ⟨t', by unfold score_round; simp only [helect]; exact ht'⟩
    | some slot =>
      simp only [helect] at h
      cases hstep : calculate_scores_for_leader index fuel cm committer slot s with
      | error e => rw [hstep] at h; simp at h
      | ok s1 =>
        simp only [hstep] at h
        obtain ⟨t1, ht1⟩ :=
          calculate_scores_for_leader_ok_independent index fuel cm committer slot s t s1 hstep
        obtain ⟨t', ht'⟩ := ih r s1 t1 s' h
        refine ⟨t', ?_⟩
        unfold score_round
        simp only [helect, ht1]
        exact ht'

theorem score_rounds_ok_independent (index : List Block) (fuel : Nat) (cm : Committee)
    (committers : List Committer) :
    ∀ (rounds : List Nat) (s t s' : List Nat),
    score_rounds index fuel cm committers rounds s = .ok s' →
    ∃ t', score_rounds index fuel cm committers rounds t = .ok t' := by
  intro rounds
  induction rounds with
  | nil => intro s t s' _; exact ⟨t, rfl⟩
  | cons r rest ih =>
    intro s t s' h
    unfold score_rounds at h
    cases hstep : score_round index fuel cm committers r s with
    | error e => rw [hstep] at h; simp at h
    | ok s1 =>
      simp only [hstep] at h
      obtain ⟨t1, ht1⟩ := score_round_ok_independent index fuel cm committers r s t s1 hstep
      obtain ⟨t', ht'⟩ := ih s1 t1 s' h
      refine ⟨t', ?_⟩
      unfold score_rounds
      simp only [ht1]
      exact ht'

/-! ### Unfolding helpers for the public operations -/

theorem new_ok_fields {cm : Committee} {cs : List Committer} {sds : List CommittedSubDag}
    {c : ReputationScoreCalculator}
    (h : ReputationScoreCalculator.new cm cs sds = .ok c) :
    c.committee = cm ∧ c.committers = cs ∧
      c.unscored_blocks = build_index (subdag_blocks_union sds) ∧
      c.scores_per_authority = List.replicate cm.size 0 := by
  unfold ReputationScoreCalculator.new at h
  by_cases hsds : sds.isEmpty
  · rw [if_pos hsds] at h; exact absurd h (by simp)
  · rw [if_neg hsds] at h
    simp only [Except.ok.injEq] at h
    subst h
    exact ⟨rfl, rfl, rfl, rfl⟩

theorem calculate_unfold (fuel : Nat) (c : ReputationScoreCalculator) (minR maxR : Nat)
    (h0 : c.unscored_blocks.isEmpty = false)
    (h1 : (non_genesis_rounds c.unscored_blocks).min? = some minR)
    (h2 : (non_genesis_rounds c.unscored_blocks).max? = some maxR) :
    c.calculate fuel =
      match score_rounds c.unscored_blocks fuel c.committee c.committers
          (leader_rounds_range minR maxR) c.scores_per_authority with
      | .ok scores =>
        .ok (⟨scores, c.commit_range⟩, { c with scores_per_authority := scores })
      | .error e => .error e := by
  unfold ReputationScoreCalculator.calculate
  rw [if_neg (by rw [h0]; exact Bool.false_ne_true), h1, h2]

/-! ### The SupportOracle traversal written from the spec (for C5) -/

/-- Modelled from the spec: step 2 of the SupportOracle algorithm, the
per-ancestor loop in stored order: return a direct slot match immediately; skip
an ancestor at a round at most the leader round; otherwise look the ancestor up,
abort the whole call with none when it is absent, and when present recurse and
return the first positive recursive result. -/
def spec_scan (index : List Block) (rec : Block → Option BlockRef) (leader_slot : Slot) :
    List BlockRef → Option BlockRef
  | [] => none
  | a :: rest =>
    if Slot.ofRef a = leader_slot then some a
    else if a.round ≤ leader_slot.round then spec_scan index rec leader_slot rest
    else
      match get_block index a with
      | none => none
      | some blk =>
        match rec blk with
        | some r => some r
        | none => spec_scan index rec leader_slot rest

/-- Modelled from the spec: `find_supported_leader(leader_slot, from_block)` of
the SupportOracle section — none below the leader round, else the ancestor scan
— with the same fuel discipline as the embedded code. -/
def find_supported_leader_spec (index : List Block) : Nat → Slot → Block → Option BlockRef
  | 0, _, _ => none
  | fuel + 1, leader_slot, from_block =>
    if from_block.round < leader_slot.round then none
    else
      spec_scan index (fun b => find_supported_leader_spec index fuel leader_slot b)
        leader_slot from_block.ancestors

theorem scan_ancestors_congr (index : List Block) (rec1 rec2 : Block → Option BlockRef)
    (leader_slot : Slot) (hrec : ∀ b, rec1 b = rec2 b) :
    ∀ l, scan_ancestors index rec1 leader_slot l = spec_scan index rec2 leader_slot l := by
  intro l
  induction l with
  | nil => rfl
  | cons a rest ih =>
    unfold scan_ancestors spec_scan
    by_cases h1 : Slot.ofRef a = leader_slot
    · rw [if_pos h1, if_pos h1]
    · rw [if_neg h1, if_neg h1]
      by_cases h2 : a.round ≤ leader_slot.round
      · rw [if_pos h2, if_pos h2]; exact ih
      · rw [if_neg h2, if_neg h2]
        cases hgb : get_block index a with
        | none => simp [hgb]
        | some blk =>
          simp only [hgb]
          rw [hrec blk]
          cases hr : rec2 blk with
          | some r => simp [hr]
          | none => simp only [hr]; exact ih

/-- C5: the embedded `find_supported_block` coincides, for every fuel, leader
slot and starting block, with the traversal the spec prescribes: none when the
block is below the leader round; otherwise scan the stored ancestors in order,
return the first slot match, skip ancestors at rounds at most the leader round,
recurse into indexed ancestors returning the first positive recursive result,
and return none for the whole call at the first unindexed higher-round
ancestor. -/
theorem c5_find_supported_block_follows_spec (index : List Block) :
    ∀ (fuel : Nat) (leader_slot : Slot) (b : Block),
    find_supported_block index fuel leader_slot b
      = find_supported_leader_spec index fuel leader_slot b := by
  intro fuel
  induction fuel with
  | zero => intro leader_slot b; rfl
  | succ fuel ih =>
    intro leader_slot b
    unfold find_supported_block find_supported_leader_spec
    by_cases h : b.round < leader_slot.round
    · rw [if_pos h, if_pos h]
    · rw [if_neg h, if_neg h]
      exact scan_ancestors_congr index _ _ leader_slot (fun b' => ih leader_slot b')
        b.ancestors

/-! ### Soundness of vote detection (for C6) -/

/-- A descending ancestor chain from a block down to a target reference: the
target is a direct ancestor at a strictly smaller round, or an indexed ancestor
at a strictly smaller round continues the chain. -/
inductive AncestorChainDesc (index : List Block) (target : BlockRef) : Block → Prop where
  | direct (b : Block) : target ∈ b.ancestors → target.round < b.round →
      AncestorChainDesc index target b
  | step (b c : Block) : c.reference ∈ b.ancestors → c.round < b.round →
      get_block index c.reference = some c →
      AncestorChainDesc index target c →
      AncestorChainDesc index target b

theorem scan_ancestors_cases (index : List Block) (rec : Block → Option BlockRef)
    (leader_slot : Slot) :
    ∀ (l : List BlockRef) (r : BlockRef),
    scan_ancestors index rec leader_slot l = some r →
    r ∈ l ∨ ∃ a blk, a ∈ l ∧ get_block index a = some blk ∧ rec blk = some r := by
  intro l
  induction l with
  | nil => intro r h; simp [scan_ancestors] at h
  | cons a rest ih =>
    intro r h
    unfold scan_ancestors at h
    by_cases h1 : Slot.ofRef a = leader_slot
    · rw [if_pos h1] at h
      injection h with h
      subst h
      exact Or.inl (List.mem_cons_self a rest)
    · rw [if_neg h1] at h
      by_cases h2 : a.round ≤ leader_slot.round
      · rw [if_pos h2] at h
        rcases ih r h with hmem | ⟨a', blk, hmem, hgb, hrec⟩
        · exact Or.inl (List.mem_cons_of_mem _ hmem)
        · exact Or.inr ⟨a', blk, List.mem_cons_of_mem _ hmem, hgb, hrec⟩
      · rw [if_neg h2] at h
        cases hgb : get_block index a with
        | none => simp only [hgb] at h; exact absurd h (by simp)
        | some blk =>
          simp only [hgb] at h
          cases hrec : rec blk with
          | some s =>
            simp only [hrec] at h
            injection h with h
            subst h
            exact Or.inr ⟨a, blk, List.mem_cons_self a rest, hgb, hrec⟩
          | none =>
            simp only [hrec] at h
            rcases ih r h with hmem | ⟨a', blk', hmem, hgb', hrec'⟩
            · exact Or.inl (List.mem_cons_of_mem _ hmem)
            · exact Or.inr ⟨a', blk', List.mem_cons_of_mem _ hmem, hgb', hrec'⟩

theorem find_supported_block_chain (index : List Block)
    (Hidx : ∀ blk ∈ index, ∀ a ∈ blk.ancestors, a.round < blk.round) :
    ∀ (fuel : Nat) (leader_slot : Slot) (b : Block) (r : BlockRef),
    (∀ a ∈ b.ancestors, a.round < b.round) →
    find_supported_block index fuel leader_slot b = some r →
    AncestorChainDesc index r b := by
  intro fuel
  induction fuel with
  | zero => intro slot b r _ h; simp [find_supported_block] at h
  | succ fuel ih =>
    intro slot b r hb h
    unfold find_supported_block at h
    by_cases hlow : b.round < slot.round
    · rw [if_pos hlow] at h; simp at h
    · rw [if_neg hlow] at h
      rcases scan_ancestors_cases index _ slot b.ancestors r h with
        hmem | ⟨a, blk, hmem, hgb, hrec⟩
      · exact AncestorChainDesc.direct b hmem (hb r hmem)
      · have hblk_ref : blk.reference = a := get_block_ref hgb
        have hblk_mem : blk ∈ index := get_block_mem hgb
        have hchain : AncestorChainDesc index r blk :=
          ih slot blk r (Hidx blk hblk_mem) hrec
        refine AncestorChainDesc.step b blk ?_ ?_ ?_ hchain
        · rw [hblk_ref]; exact hmem
        · have h1 := hb a hmem
          rw [← hblk_ref] at h1
          exact h1
        · rw [hblk_ref]; exact hgb

/-- C6: on an index whose ancestor references always point to strictly smaller
rounds, a positive `is_vote(v, L)` verdict for an indexed block `v` yields a
chain `v = b0, b1, ..., bk`, each `b_{i+1}` an ancestor of `b_i`, with strictly
decreasing rounds, ending at `L`'s block reference (whose round is `L.round`). -/
theorem c6_is_vote_soundness (index : List Block) (fuel : Nat) (v leader_block : Block)
    (Hidx : ∀ blk ∈ index, ∀ a ∈ blk.ancestors, a.round < blk.round)
    (hv : v ∈ index)
    (hvote : is_vote index fuel v leader_block = true) :
    AncestorChainDesc index leader_block.reference v := by
  have hfind : find_supported_block index fuel (Slot.ofRef leader_block.reference) v
      = some leader_block.reference := by
    unfold is_vote at hvote
    exact of_decide_eq_true hvote
  exact find_supported_block_chain index Hidx fuel _ v leader_block.reference
    (Hidx v hv) hfind

/-! ### Shared helpers for the top-level claims -/

theorem isEmpty_false_of_min_some {blocks : List Block} {m : Nat}
    (h : (non_genesis_rounds blocks).min? = some m) : blocks.isEmpty = false := by
  cases hE : blocks with
  | nil =>
    rw [hE] at h
    simp [non_genesis_rounds] at h
  | cons x xs => rfl

theorem calculate_ok_shape (fuel : Nat) (c : ReputationScoreCalculator) (minR maxR : Nat)
    (S : List Nat)
    (h0 : c.unscored_blocks.isEmpty = false)
    (h1 : (non_genesis_rounds c.unscored_blocks).min? = some minR)
    (h2 : (non_genesis_rounds c.unscored_blocks).max? = some maxR)
    (hsr : score_rounds c.unscored_blocks fuel c.committee c.committers
      (leader_rounds_range minR maxR) c.scores_per_authority = .ok S) :
    c.calculate fuel
      = .ok (⟨S, c.commit_range⟩, { c with scores_per_authority := S }) := by
  rw [calculate_unfold fuel c minR maxR h0 h1 h2, hsr]

/-! ### Concrete inputs shared by witnesses and counterexamples -/

/-- Example window, rounds 1..4: a leader at `(1, 0)`, three votes at round 2,
one certificate at round 3 authored by authority 3, a filler block at round 4. -/
def exL : Block := ⟨1, 0, 0, []⟩

def exV0 : Block := ⟨2, 0, 0, [exL.reference]⟩

def exV1 : Block := ⟨2, 1, 0, [exL.reference]⟩

def exV2 : Block := ⟨2, 2, 0, [exL.reference]⟩

def exC : Block := ⟨3, 3, 0, [exV0.reference, exV1.reference, exV2.reference]⟩

def exM : Block := ⟨4, 0, 0, []⟩

/-- Four authorities of stake one each, quorum `2f + 1 = 3`. -/
def exCommittee : Committee := ⟨[1, 1, 1, 1], 3⟩

/-- One sub-committer: elects slot `(1, 0)` for leader round 1, declines other
rounds; the decision round of every wave is 3. -/
def exCommitter : Committer :=
  ⟨fun r => if r = 1 then some ⟨1, 0⟩ else none, fun _ => 0, fun _ => 3⟩

def exSubdags : List CommittedSubDag :=
  [⟨exC.reference, [exL, exV0, exV1, exV2, exC, exM], 1⟩]

def exIndex : List Block := build_index (subdag_blocks_union exSubdags)

def exCalc : ReputationScoreCalculator :=
  ⟨exCommittee, [exCommitter], exIndex, ⟨1, 1⟩, [0, 0, 0, 0]⟩

def exCalc2 : ReputationScoreCalculator :=
  { exCalc with scores_per_authority := [0, 0, 0, 1] }

def exScores : ReputationScores := ⟨[0, 0, 0, 1], ⟨1, 1⟩⟩

/-! ### C1 -/

/-- C1: on a valid input (both constructions succeed), for every authority `i`
the final score vector holds exactly the sum, over the leader rounds
`[R_min, R_max - 3]` and over the sub-committers in order, of the number of
blocks `b` authored by `i` at the committer's decision round with
`is_certificate(b, L)` true for the slot's unique leader block `L` (slots
without a leader block contribute nothing) — and no other operation changes any
score entry: the initial scores are zero and every increment is `+1` to the
certificate block's author. -/
theorem c1_calculate_certificate_characterization
    (cm : Committee) (cs : List Committer) (sds : List CommittedSubDag)
    (c c' : ReputationScoreCalculator) (rs : ReputationScores)
    (fuel minR maxR : Nat)
    (hnew : ReputationScoreCalculator.new cm cs sds = .ok c)
    (hmin : (non_genesis_rounds c.unscored_blocks).min? = some minR)
    (hmax : (non_genesis_rounds c.unscored_blocks).max? = some maxR)
    (h3 : 3 ≤ maxR) (hw : maxR < 4294967296)
    (hcalc : c.calculate fuel = .ok (rs, c'))
    (i : Nat) (hi : i < cm.size) :
    rs.scores_per_authority.getD i 0
      = total_delta c.unscored_blocks fuel cm cs
          (List.range' minR (maxR - 3 + 1 - minR)) i := by
  obtain ⟨hcm, hcs, hblocks, hscores⟩ := new_ok_fields hnew
  have h0 : c.unscored_blocks.isEmpty = false := isEmpty_false_of_min_some hmin
  have harith : u32_sub3 maxR = maxR - 3 := by
    unfold u32_sub3
    omega
  have hrange : leader_rounds_range minR maxR
      = List.range' minR (maxR - 3 + 1 - minR) := by
    unfold leader_rounds_range
    rw [harith]
  rw [calculate_unfold fuel c minR maxR h0 hmin hmax] at hcalc
  cases hsr : score_rounds c.unscored_blocks fuel c.committee c.committers
      (leader_rounds_range minR maxR) c.scores_per_authority with
  | error e => rw [hsr] at hcalc; simp at hcalc
  | ok S =>
    rw [hsr] at hcalc
    simp only [Except.ok.injEq, Prod.mk.injEq] at hcalc
    obtain ⟨hrs, _⟩ := hcalc
    obtain ⟨_, hgetD⟩ := score_rounds_spec c.unscored_blocks fuel c.committee c.committers
      (leader_rounds_range minR maxR) c.scores_per_authority S hsr
    have hl : i < c.scores_per_authority.length := by
      rw [hscores, List.length_replicate]
      exact hi
    have hx := hgetD i hl
    rw [hscores, getD_replicate_zero cm.size i] at hx
    rw [← hrs]
    show S.getD i 0 = _
    rw [hx, hcm, hcs, hrange]
    omega

/-- C1 witness: the example window, authority 3. -/
theorem c1_witness :
    ReputationScoreCalculator.new exCommittee [exCommitter] exSubdags = .ok exCalc ∧
    exCalc.calculate 5 = .ok (exScores, exCalc2) ∧
    exScores.scores_per_authority.getD 3 0
      = total_delta exCalc.unscored_blocks 5 exCommittee [exCommitter]
          (List.range' 1 (4 - 3 + 1 - 1)) 3 :=
  ⟨rfl, rfl,
    c1_calculate_certificate_characterization exCommittee [exCommitter] exSubdags
      exCalc exCalc2 exScores 5 1 4 rfl rfl rfl (by norm_num) (by norm_num) rfl
      3 (by decide)⟩

/-! ### C2 -/

/-- The scores a run returns, when it succeeds. -/
def scores_of (r : Except ScoringError (ReputationScores × ReputationScoreCalculator)) :
    Option (List Nat) :=
  match r with
  | .ok p => some p.1.scores_per_authority
  | .error _ => none

/-- C2 counterexample: in the example window the one certificate for the leader
at slot `(1, 0)` (authored by authority 0) is the decision-round block authored
by authority 3; `calculate` leaves the leader's authority at score 0 and
increments authority 3 instead — the incremented score is not the leader's. -/
theorem c2_counterexample :
    ReputationScoreCalculator.new exCommittee [exCommitter] exSubdags = .ok exCalc ∧
    scores_of (exCalc.calculate 5) = some [0, 0, 0, 1] ∧
    exCommitter.elect_leader 1 = some ⟨1, 0⟩ ∧
    get_blocks_at_slot exCalc.unscored_blocks ⟨1, 0⟩ = [exL] ∧
    exL.author = 0 ∧
    get_blocks_at_round exCalc.unscored_blocks
      (exCommitter.decision_round (exCommitter.wave_number 1)) = [exC] ∧
    cert_pure exCalc.unscored_blocks 5 exCommittee exC exL = true ∧
    exC.author = 3 ∧
    ([0, 0, 0, 1] : List Nat).getD exL.author 0 = 0 ∧
    ([0, 0, 0, 1] : List Nat).getD exC.author 0 = 1 :=
  ⟨rfl, rfl, rfl, rfl, rfl, rfl, rfl, rfl, rfl, rfl⟩

/-- C2 (amended): the score incremented by one per certificate found at a
leader's decision round is that of the certificate block's author — the
decision-round block forming the certificate — not the leader's authority:
scoring one leader changes authority `i`'s entry by exactly the number of
decision-round certificate blocks authored by `i`. -/
theorem c2_certificate_author_is_scored (index : List Block) (fuel : Nat)
    (cm : Committee) (committer : Committer) (leader_slot : Slot)
    (scores scores' : List Nat)
    (h : calculate_scores_for_leader index fuel cm committer leader_slot scores
      = .ok scores')
    (i : Nat) (hi : i < scores.length) :
    scores'.getD i 0 = scores.getD i 0
      + leader_delta index fuel cm committer leader_slot i :=
  (calculate_scores_for_leader_spec index fuel cm committer leader_slot
    scores scores' h).2 i hi

/-- C2 witness: scoring the example leader adds one point to authority 3, the
certificate block's author. -/
theorem c2_witness :
    calculate_scores_for_leader exCalc.unscored_blocks 5 exCommittee exCommitter
        ⟨1, 0⟩ [0, 0, 0, 0] = .ok [0, 0, 0, 1] ∧
    ([0, 0, 0, 1] : List Nat).getD 3 0
      = ([0, 0, 0, 0] : List Nat).getD 3 0
        + leader_delta exCalc.unscored_blocks 5 exCommittee exCommitter ⟨1, 0⟩ 3 :=
  ⟨rfl,
    c2_certificate_author_is_scored exCalc.unscored_blocks 5 exCommittee exCommitter
      ⟨1, 0⟩ [0, 0, 0, 0] [0, 0, 0, 1] rfl 3 (by decide)⟩

/-! ### C3 -/

/-- C3 (amended): on a valid input whose non-genesis rounds additionally
satisfy `3 ≤ R_max` (rounds being `u32` values), a short window
`R_max < R_min + 3` makes the leader-round loop empty and `calculate` succeeds
with all-zero scores. The original claim also covered `R_max < 3`; there the
`u32` subtraction `R_max - 3` wraps around, the loop is not empty, and the
scores need not be zero (see the counterexample). -/
theorem c3_short_window_no_op
    (cm : Committee) (cs : List Committer) (sds : List CommittedSubDag)
    (c : ReputationScoreCalculator) (fuel minR maxR : Nat)
    (hnew : ReputationScoreCalculator.new cm cs sds = .ok c)
    (hmin : (non_genesis_rounds c.unscored_blocks).min? = some minR)
    (hmax : (non_genesis_rounds c.unscored_blocks).max? = some maxR)
    (h3 : 3 ≤ maxR) (hw : maxR < 4294967296) (hshort : maxR < minR + 3) :
    leader_rounds_range minR maxR = [] ∧
    c.calculate fuel
      = .ok (⟨List.replicate cm.size 0, c.commit_range⟩,
          { c with scores_per_authority := List.replicate cm.size 0 }) := by
  obtain ⟨hcm, hcs, hblocks, hscores⟩ := new_ok_fields hnew
  have h0 : c.unscored_blocks.isEmpty = false := isEmpty_false_of_min_some hmin
  have hrange : leader_rounds_range minR maxR = [] := by
    unfold leader_rounds_range u32_sub3
    rw [List.range'_eq_nil]
    omega
  refine ⟨hrange, ?_⟩
  have hsr : score_rounds c.unscored_blocks fuel c.committee c.committers
      (leader_rounds_range minR maxR) c.scores_per_authority
      = .ok c.scores_per_authority := by
    rw [hrange]
    rfl
  have hok := calculate_ok_shape fuel c minR maxR c.scores_per_authority h0 hmin hmax hsr
  rw [hok, hscores]

/-- C3 witness input: a three-round chain, rounds 1..3, no certificate
reachable (`R_max = 3 < R_min + 3 = 4`). -/
def zW1 : Block := ⟨1, 0, 0, []⟩

def zW2 : Block := ⟨2, 0, 0, [zW1.reference]⟩

def zW3 : Block := ⟨3, 0, 0, [zW2.reference]⟩

def zSubdags : List CommittedSubDag := [⟨zW3.reference, [zW1, zW2, zW3], 1⟩]

def zIndex : List Block := build_index (subdag_blocks_union zSubdags)

def zCalc : ReputationScoreCalculator :=
  ⟨exCommittee, [exCommitter], zIndex, ⟨1, 1⟩, [0, 0, 0, 0]⟩

/-- C3 witness: the three-round window is a no-op with zero scores. -/
theorem c3_witness :
    ReputationScoreCalculator.new exCommittee [exCommitter] zSubdags = .ok zCalc ∧
    leader_rounds_range 1 3 = [] ∧
    zCalc.calculate 5
      = .ok (⟨List.replicate exCommittee.size 0, zCalc.commit_range⟩,
          { zCalc with scores_per_authority := List.replicate exCommittee.size 0 }) :=
  ⟨rfl,
    (c3_short_window_no_op exCommittee [exCommitter] zSubdags zCalc 5 1 3 rfl rfl rfl
      (by norm_num) (by norm_num) (by norm_num)).1,
    (c3_short_window_no_op exCommittee [exCommitter] zSubdags zCalc 5 1 3 rfl rfl rfl
      (by norm_num) (by norm_num) (by norm_num)).2⟩

theorem score_round_all_none (index : List Block) (fuel : Nat) (cm : Committee) :
    ∀ (committers : List Committer) (r : Nat) (scores : List Nat),
    (∀ committer ∈ committers, committer.elect_leader r = none) →
    score_round index fuel cm committers r scores = .ok scores := by
  intro committers
  induction committers with
  | nil => intro r scores _; rfl
  | cons committer rest ih =>
    intro r scores hnone
    unfold score_round
    rw [hnone committer (List.mem_cons_self committer rest)]
    exact ih r scores (fun cmt h => hnone cmt (List.mem_cons_of_mem _ h))

theorem score_rounds_all_none (index : List Block) (fuel : Nat) (cm : Committee)
    (committers : List Committer) :
    ∀ (rounds : List Nat) (scores : List Nat),
    (∀ r ∈ rounds, ∀ committer ∈ committers, committer.elect_leader r = none) →
    score_rounds index fuel cm committers rounds scores = .ok scores := by
  intro rounds
  induction rounds with
  | nil => intro scores _; rfl
  | cons r rest ih =>
    intro scores hnone
    unfold score_rounds
    rw [score_round_all_none index fuel cm committers r scores
      (hnone r (List.mem_cons_self r rest))]
    exact ih scores (fun r' hr' => hnone r' (List.mem_cons_of_mem _ hr'))

/-- C3 counterexample input, rounds 0..2 (`R_min = 1`, `R_max = 2 < 3`): a
genesis block, three votes for it at round 1, and a round-2 block whose
ancestors are those votes; the committer elects slot `(0, 0)` at leader round 1
and places every decision round at 2. -/
def cexG : Block := ⟨0, 0, 0, []⟩

def cexV0 : Block := ⟨1, 0, 0, [cexG.reference]⟩

def cexV1 : Block := ⟨1, 1, 0, [cexG.reference]⟩

def cexV2 : Block := ⟨1, 2, 0, [cexG.reference]⟩

def cexC : Block := ⟨2, 3, 0, [cexV0.reference, cexV1.reference, cexV2.reference]⟩

def cexCommitter : Committer :=
  ⟨fun r => if r = 1 then some ⟨0, 0⟩ else none, fun _ => 0, fun _ => 2⟩

def cexSubdags : List CommittedSubDag :=
  [⟨cexC.reference, [cexG, cexV0, cexV1, cexV2, cexC], 1⟩]

def cexIndex : List Block := build_index (subdag_blocks_union cexSubdags)

def cexCalc : ReputationScoreCalculator :=
  ⟨exCommittee, [cexCommitter], cexIndex, ⟨1, 1⟩, [0, 0, 0, 0]⟩

/-- C3 counterexample: a valid input with `R_min = 1`, `R_max = 2` (so
`R_max < R_min + 3`), on which the claim fails: the wrapped `u32` subtraction
makes the leader-round loop range `1..=4294967295`, which is not empty, and
`calculate` returns scores `[0, 0, 0, 1]`, not all zeros. -/
theorem c3_counterexample :
    ReputationScoreCalculator.new exCommittee [cexCommitter] cexSubdags = .ok cexCalc ∧
    (non_genesis_rounds cexCalc.unscored_blocks).min? = some 1 ∧
    (non_genesis_rounds cexCalc.unscored_blocks).max? = some 2 ∧
    leader_rounds_range 1 2 ≠ [] ∧
    scores_of (cexCalc.calculate 5) = some [0, 0, 0, 1] := by
  refine ⟨rfl, rfl, rfl, ?_, ?_⟩
  · have h1 : leader_rounds_range 1 2 = List.range' 1 4294967295 := by
      unfold leader_rounds_range u32_sub3
      norm_num
    rw [h1, Ne, List.range'_eq_nil]
    norm_num
  · have h1 : leader_rounds_range 1 2 = List.range' 1 4294967295 := by
      unfold leader_rounds_range u32_sub3
      norm_num
    have hsplit : List.range' 1 4294967295 = 1 :: List.range' 2 4294967294 := by
      have h2 : (4294967295 : Nat) = 4294967294 + 1 := by norm_num
      rw [h2, List.range'_succ]
    have hstep1 : score_round cexCalc.unscored_blocks 5 exCommittee [cexCommitter] 1
        [0, 0, 0, 0] = .ok [0, 0, 0, 1] := rfl
    have hrest : score_rounds cexCalc.unscored_blocks 5 exCommittee [cexCommitter]
        (List.range' 2 4294967294) [0, 0, 0, 1] = .ok [0, 0, 0, 1] := by
      apply score_rounds_all_none
      intro r hr committer hcmt
      have hr2 : 2 ≤ r := (List.mem_range'_1.mp hr).1
      have hc : committer = cexCommitter := List.mem_singleton.mp hcmt
      subst hc
      show (if r = 1 then some (⟨0, 0⟩ : Slot) else none) = none
      rw [if_neg (by omega)]
    have hsr : score_rounds cexCalc.unscored_blocks 5 exCommittee [cexCommitter]
        (leader_rounds_range 1 2) [0, 0, 0, 0] = .ok [0, 0, 0, 1] := by
      rw [h1, hsplit]
      unfold score_rounds
      rw [hstep1]
      exact hrest
    have hok := calculate_ok_shape 5 cexCalc 1 2 [0, 0, 0, 1] rfl rfl rfl hsr
    rw [hok]
    rfl

/-! ### C4 witness -/

/-- C4 witness: the example certificate reaches the quorum with distinct vote
authors 0, 1, 2 of stake 1 each against `Q = 3`. -/
theorem c4_witness :
    0 < exCommittee.quorum_threshold ∧
    ((is_certificate exCalc.unscored_blocks 5 exCommittee exC exL []).1 = true ↔
      exCommittee.quorum_threshold
        ≤ certificate_vote_stake exCalc.unscored_blocks 5 exCommittee exC exL) :=
  ⟨by decide,
    c4_is_certificate_iff_quorum_stake exCalc.unscored_blocks 5 exCommittee exC exL
      (by decide)⟩

/-! ### C6 witness -/

def c6L : Block := ⟨1, 0, 0, []⟩

def c6V : Block := ⟨2, 0, 0, [c6L.reference]⟩

def c6Index : List Block := build_index [c6L, c6V]

/-- C6 witness: a two-block round-decreasing index where the round-2 block
votes for the round-1 leader through a direct ancestor edge. -/
theorem c6_witness :
    (∀ blk ∈ c6Index, ∀ a ∈ blk.ancestors, a.round < blk.round) ∧
    c6V ∈ c6Index ∧
    is_vote c6Index 5 c6V c6L = true ∧
    AncestorChainDesc c6Index c6L.reference c6V :=
  ⟨by decide, by decide, rfl,
    c6_is_vote_soundness c6Index 5 c6V c6L (by decide) (by decide) rfl⟩

/-! ### C7 -/

/-- C7: `authorities_by_score_desc` returns a permutation of the enumerated
`(authority index, score)` pairs — each authority index of `0..N` exactly once,
paired with its score — sorted by score descending with ties broken by
authority index descending (the `score_order` comparator); in particular
scores `[4, 1, 1, 3]` yield `[(A0, 4), (A3, 3), (A2, 1), (A1, 1)]`. -/
theorem c7_authorities_by_score_desc_ordering :
    (∀ rs : ReputationScores,
      List.Perm rs.authorities_by_score_desc rs.scores_per_authority.enum ∧
      List.Sorted score_order rs.authorities_by_score_desc) ∧
    (ReputationScores.mk [4, 1, 1, 3] ⟨1, 300⟩).authorities_by_score_desc
      = [(0, 4), (3, 3), (2, 1), (1, 1)] := by
  constructor
  · intro rs
    exact ⟨List.perm_insertionSort score_order _, List.sorted_insertionSort score_order _⟩
  · decide

/-! ### C8 -/

/-- The full engine as one function of its inputs: construct, then calculate. -/
def scoring_pipeline (fuel : Nat) (cm : Committee) (cs : List Committer)
    (sds : List CommittedSubDag) :
    Except ScoringError (ReputationScores × ReputationScoreCalculator) :=
  match ReputationScoreCalculator.new cm cs sds with
  | .ok c => c.calculate fuel
  | .error e => .error e

/-- C8: the engine is deterministic — a pure function of
`(committee, committer set, sub-DAGs)`: two invocations on equal inputs return
identical `ReputationScores` (scores vector and commit range), and
`authorities_by_score_desc` on the results returns identical sequences. -/
theorem c8_determinism (fuel : Nat) (cm1 cm2 : Committee) (cs1 cs2 : List Committer)
    (sds1 sds2 : List CommittedSubDag)
    (hcm : cm1 = cm2) (hcs : cs1 = cs2) (hsds : sds1 = sds2) :
    scoring_pipeline fuel cm1 cs1 sds1 = scoring_pipeline fuel cm2 cs2 sds2 ∧
    Except.map (fun p => p.1.authorities_by_score_desc)
        (scoring_pipeline fuel cm1 cs1 sds1)
      = Except.map (fun p => p.1.authorities_by_score_desc)
        (scoring_pipeline fuel cm2 cs2 sds2) := by
  subst hcm
  subst hcs
  subst hsds
  exact ⟨rfl, rfl⟩

/-- C8 witness: two runs on the example input. -/
theorem c8_witness :
    scoring_pipeline 5 exCommittee [exCommitter] exSubdags
      = scoring_pipeline 5 exCommittee [exCommitter] exSubdags ∧
    Except.map (fun p => p.1.authorities_by_score_desc)
        (scoring_pipeline 5 exCommittee [exCommitter] exSubdags)
      = Except.map (fun p => p.1.authorities_by_score_desc)
        (scoring_pipeline 5 exCommittee [exCommitter] exSubdags) :=
  c8_determinism 5 exCommittee exCommittee [exCommitter] [exCommitter]
    exSubdags exSubdags rfl rfl rfl

/-! ### C9 -/

theorem insert_block_ne_nil (b : Block) : ∀ l : List Block, insert_block b l ≠ [] := by
  intro l
  cases l with
  | nil => simp [insert_block]
  | cons x xs =>
    unfold insert_block
    by_cases h1 : b.reference = x.reference
    · rw [if_pos h1]; simp
    · rw [if_neg h1]
      by_cases h2 : BlockRef.lt b.reference x.reference = true
      · rw [if_pos h2]; simp
      · rw [if_neg h2]; simp

theorem build_index_foldl_ne_nil : ∀ (l : List Block) (acc : List Block),
    (l.foldl (fun m b => insert_block b m) acc = []) → l = [] ∧ acc = [] := by
  intro l
  induction l with
  | nil => intro acc h; exact ⟨rfl, h⟩
  | cons b rest ih =>
    intro acc h
    rw [List.foldl_cons] at h
    obtain ⟨_, h2⟩ := ih (insert_block b acc) h
    exact absurd h2 (insert_block_ne_nil b acc)

theorem build_index_eq_nil_iff (blocks : List Block) :
    build_index blocks = [] ↔ blocks = [] := by
  constructor
  · intro h
    exact (build_index_foldl_ne_nil blocks [] h).1
  · intro h
    subst h
    rfl

/-- C9: construction with an empty sub-DAG list fails with `EmptyInput` and
construction on a non-empty list never fails; `calculate` fails with
`EmptyBlocks` exactly when the union of the input blocks is empty. Each failure
returns the error alone — no scores are produced. -/
theorem c9_empty_input_and_empty_blocks :
    (∀ (cm : Committee) (cs : List Committer),
      ReputationScoreCalculator.new cm cs [] = .error .EmptyInput) ∧
    (∀ (cm : Committee) (cs : List Committer) (sds : List CommittedSubDag),
      sds ≠ [] → ∃ c, ReputationScoreCalculator.new cm cs sds = .ok c) ∧
    (∀ (cm : Committee) (cs : List Committer) (sds : List CommittedSubDag)
        (c : ReputationScoreCalculator) (fuel : Nat),
      ReputationScoreCalculator.new cm cs sds = .ok c →
      ((c.calculate fuel = .error .EmptyBlocks) ↔ subdag_blocks_union sds = [])) := by
  refine ⟨fun cm cs => rfl, ?_, ?_⟩
  · intro cm cs sds hne
    cases sds with
    | nil => exact absurd rfl hne
    | cons sd rest => exact ⟨_, rfl⟩
  · intro cm cs sds c fuel hnew
    obtain ⟨hcm, hcs, hblocks, hscores⟩ := new_ok_fields hnew
    constructor
    · intro hcal
      by_contra hu
      have hne : c.unscored_blocks ≠ [] := by
        rw [hblocks]
        intro h
        exact hu ((build_index_eq_nil_iff _).mp h)
      have h0 : c.unscored_blocks.isEmpty = false := by
        cases hE : c.unscored_blocks with
        | nil => exact absurd hE hne
        | cons x xs => rfl
      cases hm1 : (non_genesis_rounds c.unscored_blocks).min? with
      | none =>
        unfold ReputationScoreCalculator.calculate at hcal
        rw [if_neg (by rw [h0]; exact Bool.false_ne_true), hm1] at hcal
        cases hm2 : (non_genesis_rounds c.unscored_blocks).max? with
        | none => rw [hm2] at hcal; simp at hcal
        | some maxR => rw [hm2] at hcal; simp at hcal
      | some minR =>
        cases hm2 : (non_genesis_rounds c.unscored_blocks).max? with
        | none =>
          unfold ReputationScoreCalculator.calculate at hcal
          rw [if_neg (by rw [h0]; exact Bool.false_ne_true), hm1, hm2] at hcal
          simp at hcal
        | some maxR =>
          rw [calculate_unfold fuel c minR maxR h0 hm1 hm2] at hcal
          cases hsr : score_rounds c.unscored_blocks fuel c.committee c.committers
              (leader_rounds_range minR maxR) c.scores_per_authority with
          | ok S => rw [hsr] at hcal; simp at hcal
          | error e =>
            rw [hsr] at hcal
            simp only [Except.error.injEq] at hcal
            have hiv := score_rounds_error c.unscored_blocks fuel c.committee
              c.committers (leader_rounds_range minR maxR) c.scores_per_authority e hsr
            rw [hcal] at hiv
            exact ScoringError.noConfusion hiv
    · intro hu
      have hnil : c.unscored_blocks = [] := by
        rw [hblocks, hu]
        rfl
      unfold ReputationScoreCalculator.calculate
      rw [if_pos (by rw [hnil]; rfl)]

/-- One sub-DAG with an empty block list (the `EmptyBlocks` scenario). -/
def c9Subdags : List CommittedSubDag := [⟨exL.reference, [], 1⟩]

def c9Calc : ReputationScoreCalculator :=
  ⟨exCommittee, [exCommitter], [], ⟨1, 1⟩, [0, 0, 0, 0]⟩

/-- C9 witness: the empty sub-DAG list and the empty block union. -/
theorem c9_witness :
    ReputationScoreCalculator.new exCommittee [exCommitter] [] = .error .EmptyInput ∧
    (c9Calc.calculate 5 = .error .EmptyBlocks ↔ subdag_blocks_union c9Subdags = []) :=
  ⟨c9_empty_input_and_empty_blocks.1 exCommittee [exCommitter],
    c9_empty_input_and_empty_blocks.2.2 exCommittee [exCommitter] c9Subdags c9Calc 5 rfl⟩

/-! ### C10 -/

/-- C10: `calculate` accumulates into the stored score vector without resetting
it: after a successful run on a freshly constructed calculator, a second
`calculate` on the returned state succeeds and returns the same commit range
with every score entry exactly doubled. -/
theorem c10_second_calculate_doubles
    (cm : Committee) (cs : List Committer) (sds : List CommittedSubDag)
    (c c1 : ReputationScoreCalculator) (rs1 : ReputationScores) (fuel : Nat)
    (hnew : ReputationScoreCalculator.new cm cs sds = .ok c)
    (h1 : c.calculate fuel = .ok (rs1, c1)) :
    ∃ rs2 c2, c1.calculate fuel = .ok (rs2, c2) ∧
      rs2.commit_range = rs1.commit_range ∧
      rs2.scores_per_authority.length = rs1.scores_per_authority.length ∧
      ∀ i, i < rs1.scores_per_authority.length →
        rs2.scores_per_authority.getD i 0
          = 2 * rs1.scores_per_authority.getD i 0 := by
  obtain ⟨hcm, hcs, hblocks, hscores⟩ := new_ok_fields hnew
  cases hE : c.unscored_blocks.isEmpty with
  | true =>
    unfold ReputationScoreCalculator.calculate at h1
    rw [if_pos hE] at h1
    exact absurd h1 (by simp)
  | false =>
    cases hm1 : (non_genesis_rounds c.unscored_blocks).min? with
    | none =>
      unfold ReputationScoreCalculator.calculate at h1
      rw [if_neg (by rw [hE]; exact Bool.false_ne_true), hm1] at h1
      cases hm2 : (non_genesis_rounds c.unscored_blocks).max? with
      | none => rw [hm2] at h1; simp at h1
      | some maxR => rw [hm2] at h1; simp at h1
    | some minR =>
      cases hm2 : (non_genesis_rounds c.unscored_blocks).max? with
      | none =>
        unfold ReputationScoreCalculator.calculate at h1
        rw [if_neg (by rw [hE]; exact Bool.false_ne_true), hm1, hm2] at h1
        simp at h1
      | some maxR =>
        rw [calculate_unfold fuel c minR maxR hE hm1 hm2] at h1
        cases hsr : score_rounds c.unscored_blocks fuel c.committee c.committers
            (leader_rounds_range minR maxR) c.scores_per_authority with
        | error e => rw [hsr] at h1; simp at h1
        | ok S =>
          rw [hsr] at h1
          simp only [Except.ok.injEq, Prod.mk.injEq] at h1
          obtain ⟨hrs1, hc1⟩ := h1
          subst hc1
          subst hrs1
          obtain ⟨T, hT⟩ := score_rounds_ok_independent c.unscored_blocks fuel
            c.committee c.committers (leader_rounds_range minR maxR)
            c.scores_per_authority S S hsr
          obtain ⟨hlen1, hD1⟩ := score_rounds_spec c.unscored_blocks fuel c.committee
            c.committers (leader_rounds_range minR maxR) c.scores_per_authority S hsr
          obtain ⟨hlen2, hD2⟩ := score_rounds_spec c.unscored_blocks fuel c.committee
            c.committers (leader_rounds_range minR maxR) S T hT
          have hok2 := calculate_ok_shape fuel { c with scores_per_authority := S }
            minR maxR T hE hm1 hm2 hT
          refine ⟨⟨T, c.commit_range⟩, { c with scores_per_authority := T },
            hok2, rfl, hlen2, ?_⟩
          intro i hi
          have hi' : i < S.length := hi
          show T.getD i 0 = 2 * S.getD i 0
          have hic : i < c.scores_per_authority.length := by
            rw [← hlen1]
            exact hi'
          have e1 := hD1 i hic
          have e2 := hD2 i hi'
          rw [hscores, getD_replicate_zero cm.size i] at e1
          omega

/-- C10 witness: running the example calculator twice doubles `[0, 0, 0, 1]`. -/
theorem c10_witness :
    ReputationScoreCalculator.new exCommittee [exCommitter] exSubdags = .ok exCalc ∧
    exCalc.calculate 5 = .ok (exScores, exCalc2) ∧
    ∃ rs2 c2, exCalc2.calculate 5 = .ok (rs2, c2) ∧
      rs2.commit_range = exScores.commit_range ∧
      rs2.scores_per_authority.length = exScores.scores_per_authority.length ∧
      ∀ i, i < exScores.scores_per_authority.length →
        rs2.scores_per_authority.getD i 0
          = 2 * exScores.scores_per_authority.getD i 0 :=
  ⟨rfl, rfl,
    c10_second_calculate_doubles exCommittee [exCommitter] exSubdags exCalc exCalc2
      exScores 5 rfl rfl⟩

/-- C1 counterexample: a valid input (non-empty sub-DAG list, non-empty block
union) with `R_min = 1`, `R_max = 2`: the claimed leader-round interval
`[R_min, R_max - 3]` is empty, so the claimed characterization leaves every
score at zero, yet `calculate` returns scores `[0, 0, 0, 1]` — the wrapped
`u32` loop scores a certificate at a round the claimed interval does not
cover. -/
theorem c1_counterexample :
    ReputationScoreCalculator.new exCommittee [cexCommitter] cexSubdags = .ok cexCalc ∧
    (non_genesis_rounds cexCalc.unscored_blocks).min? = some 1 ∧
    (non_genesis_rounds cexCalc.unscored_blocks).max? = some 2 ∧
    List.range' 1 (2 - 3 + 1 - 1) = [] ∧
    total_delta cexCalc.unscored_blocks 5 exCommittee [cexCommitter]
        (List.range' 1 (2 - 3 + 1 - 1)) 3 = 0 ∧
    scores_of (cexCalc.calculate 5) = some [0, 0, 0, 1] ∧
    ([0, 0, 0, 1] : List Nat).getD 3 0 ≠ 0 := by
  refine ⟨rfl, rfl, rfl, rfl, rfl, ?_, by decide⟩
  have h1 : leader_rounds_range 1 2 = List.range' 1 4294967295 := by
    unfold leader_rounds_range u32_sub3
    norm_num
  have hsplit : List.range' 1 4294967295 = 1 :: List.range' 2 4294967294 := by
    have h2 : (4294967295 : Nat) = 4294967294 + 1 := by norm_num
    rw [h2, List.range'_succ]
  have hstep1 : score_round cexCalc.unscored_blocks 5 exCommittee [cexCommitter] 1
      [0, 0, 0, 0] = .ok [0, 0, 0, 1] := rfl
  have hrest : score_rounds cexCalc.unscored_blocks 5 exCommittee [cexCommitter]
      (List.range' 2 4294967294) [0, 0, 0, 1] = .ok [0, 0, 0, 1] := by
    apply score_rounds_all_none
    intro r hr committer hcmt
    have hr2 : 2 ≤ r := (List.mem_range'_1.mp hr).1
    have hc : committer = cexCommitter := List.mem_singleton.mp hcmt
    subst hc
    show (if r = 1 then some (⟨0, 0⟩ : Slot) else none) = none
    rw [if_neg (by omega)]
  have hsr : score_rounds cexCalc.unscored_blocks 5 exCommittee [cexCommitter]
      (leader_rounds_range 1 2) [0, 0, 0, 0] = .ok [0, 0, 0, 1] := by
    rw [h1, hsplit]
    unfold score_rounds
    rw [hstep1]
    exact hrest
  have hok := calculate_ok_shape 5 cexCalc 1 2 [0, 0, 0, 1] rfl rfl rfl hsr
  rw [hok]
  rfl
